import Mathlib

/-!
# Verification of the Hecks rules engine (`hecks_engines/hecks.py`)

Shallow embedding of the `Game` class: the board is a mapping from keys to
optional occupant strings (Python's `defaultdict(lambda: None)` keyed by
either vertex strings or integer coordinate tuples — the two key kinds are
kept distinct, exactly as Python `dict` distinguishes `str` from `tuple`
keys).  Stateful methods are embedded as functions returning the result
together with the post-call board, so that the temporary mutation performed
by the suicide probe is visible.  The breadth-first liberty search is
embedded with an explicit fuel parameter; fuel sufficiency on the finite
board is proved below.  Character-level string operations model Python's
behaviour on ASCII input (the only range the notation ever uses).
-/

set_option maxRecDepth 100000

namespace Hecks

/-- Error kinds raised by the engine (`ValueError` variants, plus the Python
`TypeError` that `ord` raises on a multi-character string, plus a fuel marker
that is proved unreachable on valid inputs). -/
inductive Err where
  | invalidRow
  | invalidVertex
  | emptyPoint
  | nonEmptyPoint
  | illegalMove
  | typeError
  | outOfFuel
deriving DecidableEq, Repr

/-- `RED = "R"` in the source. -/
def RED : String := "R"

/-- `BLUE = "B"` in the source. -/
def BLUE : String := "B"

/-- `HTP_PASS = "pass"` in the source. -/
def HTP_PASS : String := "pass"

/-- `HTP_RESIGN = "resign"` in the source. -/
def HTP_RESIGN : String := "resign"

/-- `Move = namedtuple("Move", ["color", "vertex"])`. -/
structure Move where
  color : String
  vertex : String
deriving DecidableEq, Repr

/-- Integer tuple vertex `(row, column)`. -/
abbrev Coord := Nat × Nat

/-- A Python `dict` key as used on the board: either a vertex string or an
integer coordinate tuple.  (`Game.play` stores under the string form while
every reader uses the tuple form.) -/
inductive BKey where
  | s (v : String)
  | c (v : Coord)
deriving DecidableEq, Repr

/-- `self.board = collections.defaultdict(lambda: None)`: a total mapping
defaulting to `none` (empty). -/
def Board := BKey → Option String

/-- Board update `board[k] = v` (with `v = none` for deletion/reset). -/
def bset (b : Board) (k : BKey) (v : Option String) : Board :=
  fun k2 => if k2 = k then v else b k2

/-- The `Game` object state: board, move history, color to move. -/
structure Game where
  board : Board
  movelist : List Move
  current_player : String

/-- `Game.__init__`: empty board, empty move list, BLUE to move. -/
def Game.init : Game :=
  { board := fun _ => none, movelist := [], current_player := BLUE }

/-! ## Coordinate system: `length_of_row` and `to_vertex_tuple` -/

/-- Python `str.isalpha` restricted to ASCII (the model's character range). -/
def pyIsAlpha (ch : Char) : Bool :=
  ('A'.toNat ≤ ch.toNat && ch.toNat ≤ 'Z'.toNat) ||
  ('a'.toNat ≤ ch.toNat && ch.toNat ≤ 'z'.toNat)

/-- Python `str.isdigit` restricted to ASCII decimal digits. -/
def pyIsDigit (ch : Char) : Bool :=
  '0'.toNat ≤ ch.toNat && ch.toNat ≤ '9'.toNat

/-- Python `str.lower` on one ASCII character. -/
def pyToLower (ch : Char) : Char :=
  if 'A'.toNat ≤ ch.toNat ∧ ch.toNat ≤ 'Z'.toNat then Char.ofNat (ch.toNat + 32) else ch

/-- Value of a digit-character list, as Python `int()` computes it for a
plain digit string. -/
def digitsVal (ds : List Char) : Nat :=
  ds.foldl (fun a ch => 10 * a + (ch.toNat - '0'.toNat)) 0

/-- Python `int(s)` on a string: optional minus sign followed by digits
(whitespace/underscore forms are outside the modelled range). -/
def strToInt (s : String) : Option Int :=
  match s.data with
  | '-' :: ds => if ds ≠ [] ∧ ds.all pyIsDigit then some (-(digitsVal ds : Int)) else none
  | ds => if ds ≠ [] ∧ ds.all pyIsDigit then some (digitsVal ds : Int) else none

/-- The integer core of `Game.length_of_row`: the two range-checked
formulas, `ValueError` outside 1–10. -/
def length_of_row_int (row : Int) : Except Err Nat :=
  if 1 ≤ row ∧ row ≤ 5 then .ok (9 + 2 * row).toNat
  else if 6 ≤ row ∧ row ≤ 10 then .ok (9 + 2 * (11 - row)).toNat
  else .error .invalidRow

/-- A row identifier as `Game.length_of_row` duck-types it: an int or a
string. -/
inductive RowIn where
  | int (n : Int)
  | str (s : String)

/-- `Game.length_of_row(row)`: alphabetic strings are converted via
`ord(row.lower()) - ord('a') + 1` (Python raises `TypeError` if the lowered
string has more than one character), other strings go through `int(row)`,
then the numeric formula applies. -/
def length_of_row : RowIn → Except Err Nat
  | .int n => length_of_row_int n
  | .str s =>
    if s.data ≠ [] ∧ s.data.all pyIsAlpha then
      match s.data with
      | [ch] => length_of_row_int ((pyToLower ch).toNat - ('a'.toNat : Int) + 1)
      | _ => .error .typeError
    else
      match strToInt s with
      | some n => length_of_row_int n
      | none => .error .invalidRow

/-- `Game.to_vertex_tuple(vertex)`: a 2–3 character string, one alphabetic
row character with `'a' <= row.lower() <= 'j'`, followed by digits; the
column value must lie within `length_of_row(row)`. -/
def to_vertex_tuple (s : String) : Except Err Coord :=
  match s.data with
  | r :: cs =>
    if 1 ≤ cs.length ∧ cs.length ≤ 2 then
      if pyIsAlpha r = true ∧ 'a'.toNat ≤ (pyToLower r).toNat ∧
          (pyToLower r).toNat ≤ 'j'.toNat ∧ cs.all pyIsDigit = true then
        let row_val : Nat := (pyToLower r).toNat - 'a'.toNat + 1
        let colv : Nat := digitsVal cs
        match length_of_row (.str (String.mk [r])) with
        | .ok max_col =>
          if 1 ≤ colv ∧ colv ≤ max_col then .ok (row_val, colv)
          else .error .invalidVertex
        | .error e => .error e
      else .error .invalidVertex
    else .error .invalidVertex
  | [] => .error .invalidVertex

/-! ## Adjacency -/

/-- The pure row-length formula (spec §4.1): `9 + 2r` for rows 1–5,
`9 + 2(11 − r)` for rows 6–10. -/
def rowLenF (y : Nat) : Nat :=
  if y ≤ 5 then 9 + 2 * y else 9 + 2 * (11 - y)

/-- A valid board coordinate: row 1–10, column 1–`rowLenF row`. -/
def validCoord (v : Coord) : Prop :=
  1 ≤ v.1 ∧ v.1 ≤ 10 ∧ 1 ≤ v.2 ∧ v.2 ≤ rowLenF v.1

instance : DecidablePred validCoord := fun v => by unfold validCoord; infer_instance

/-- Enumeration of all 150 valid coordinates. -/
def validList : List Coord :=
  (List.range 10).flatMap fun i =>
    (List.range (rowLenF (i + 1))).map fun j => (i + 1, j + 1)

/-- Modelled from the spec (§4.2 wording, used as the specification side of
the adjacency refinement): left neighbor, right neighbor, then the diagonal
neighbor chosen by board half and column parity. -/
def neighborsSpec (v : Coord) : List Coord :=
  let y := v.1
  let x := v.2
  let maxX := rowLenF y
  (if 1 < x then [(y, x - 1)] else []) ++
  (if x < maxX then [(y, x + 1)] else []) ++
  (if y ≤ 5 then
    if 2 ≤ y ∧ x % 2 = 0 then [(y - 1, x - 1)]
    else if x % 2 = 1 then (if y < 5 then [(y + 1, x + 1)] else [(y + 1, x)])
    else []
  else
    if y ≤ 9 ∧ x % 2 = 0 then [(y + 1, x - 1)]
    else if x % 2 = 1 then (if 6 < y then [(y - 1, x + 1)] else [(y - 1, x)])
    else [])

/-- `Game.get_neighbors(vertex_tuple)`: `max_x = Game.length_of_row(y)`
(errors propagate), then left, right, and the half/parity diagonal. -/
def get_neighbors (v : Coord) : Except Err (List Coord) :=
  let y := v.1
  let x := v.2
  match length_of_row (.int (y : Int)) with
  | .error e => .error e
  | .ok max_x =>
    .ok ((if 1 < x then [(y, x - 1)] else []) ++
      (if x < max_x then [(y, x + 1)] else []) ++
      (if y ≤ 5 then
        if 2 ≤ y ∧ x % 2 = 0 then [(y - 1, x - 1)]
        else if x % 2 = 1 then (if y < 5 then [(y + 1, x + 1)] else [(y + 1, x)])
        else []
      else
        if y ≤ 9 ∧ x % 2 = 0 then [(y + 1, x - 1)]
        else if x % 2 = 1 then (if 6 < y then [(y - 1, x + 1)] else [(y - 1, x)])
        else []))

/-! ## Liberty search -/

/-- One fuel unit per iteration of the `while queue` loop in
`Game.count_liberties_of`: pop from the front, skip if already expanded,
otherwise count empty neighbors and enqueue same-color neighbors. -/
def cl_loop (b : Board) (color : String) :
    Nat → List Coord → List Coord → Nat → Except Err Nat
  | 0, _, _, _ => .error .outOfFuel
  | _ + 1, [], _, acc => .ok acc
  | fuel + 1, v :: rest, expanded, acc =>
    if v ∈ expanded then cl_loop b color fuel rest expanded acc
    else
      match get_neighbors v with
      | .error e => .error e
      | .ok ns =>
        cl_loop b color fuel
          (rest ++ ns.filter (fun w => b (.c w) = some color))
          (v :: expanded)
          (acc + (ns.filter (fun w => b (.c w) = none)).length)

/-- Fuel budget; the loop is proved to terminate within `451` iterations on
the 150-cell board, so `1000` never runs out on valid input. -/
def clFuel : Nat := 1000

/-- `Game.count_liberties_of(vertex_tuple)`: `if not color: raise`
(both `None` and the falsy empty string trigger it), then the BFS. -/
def count_liberties_of (b : Board) (vt : Coord) : Except Err Nat :=
  match b (.c vt) with
  | none => .error .emptyPoint
  | some color =>
    if color = "" then .error .emptyPoint
    else cl_loop b color clFuel [vt] [] 0

/-! ## Legality and play -/

/-- `Game.is_not_suicide(move)`: re-parse the vertex, require the target
empty, place the stone, count liberties, remove the stone, return
`liberty_count != 0`.  The board component records the post-call board: if
`count_liberties_of` raised, the removal line never ran. -/
def is_not_suicide (b : Board) (m : Move) : Except Err Bool × Board :=
  match to_vertex_tuple m.vertex with
  | .error e => (.error e, b)
  | .ok vt =>
    if b (.c vt) ≠ none then (.error .nonEmptyPoint, b)
    else
      let b1 := bset b (.c vt) (some m.color)
      match count_liberties_of b1 vt with
      | .error e => (.error e, b1)
      | .ok n => (.ok (n != 0), bset b1 (.c vt) none)

/-- `Game.is_legal(move)`: color to move, pass/resign shortcut, parse with
`ValueError` swallowed to `False`, emptiness, suicide probe.  The board
component records the post-call board. -/
def is_legal (g : Game) (m : Move) : Except Err Bool × Board :=
  if g.current_player = m.color then
    if m.vertex = HTP_PASS ∨ m.vertex = HTP_RESIGN then (.ok true, g.board)
    else
      match to_vertex_tuple m.vertex with
      | .error _ => (.ok false, g.board)
      | .ok vt =>
        if g.board (.c vt) = none then is_not_suicide g.board m
        else (.ok false, g.board)
  else (.ok false, g.board)

/-- `Game.play(move)`: if legal, `self.board[move.vertex] = move.color`
(NOTE: the source stores under the raw vertex *string* key, not the parsed
tuple), append to the move list and flip the player; otherwise raise
`ValueError("Illegal move given to play")`.  The game component records the
post-call object state. -/
def play (g : Game) (m : Move) : Except Err Unit × Game :=
  match is_legal g m with
  | (.ok true, b2) =>
    (.ok (),
      { board := bset b2 (.s m.vertex) (some m.color),
        movelist := g.movelist ++ [m],
        current_player := if g.current_player = BLUE then RED else BLUE })
  | (.ok false, b2) => (.error .illegalMove, { g with board := b2 })
  | (.error e, b2) => (.error e, { g with board := b2 })

instance {ε α : Type} [DecidableEq ε] [DecidableEq α] : DecidableEq (Except ε α) :=
  fun a b =>
    match a, b with
    | .ok x, .ok y => decidable_of_iff (x = y) (by simp)
    | .error x, .error y => decidable_of_iff (x = y) (by simp)
    | .ok _, .error _ => isFalse (by simp)
    | .error _, .ok _ => isFalse (by simp)


/-- Number of (stone, empty-neighbor) adjacency pairs contributed by one
cell: its neighbors that are empty on the board, counted with multiplicity. -/
def emptyAdjCount (b : Board) (v : Coord) : Nat :=
  ((neighborsSpec v).filter (fun w => b (.c w) = none)).length

/-- Cells newly expanded by the BFS loop run with already-expanded set `e`
and work queue `q`: queue members not yet expanded, closed under same-color
adjacency steps avoiding `e`. -/
inductive NewExp (b : Board) (color : String) (e q : List Coord) : Coord → Prop
  | base (v : Coord) (h1 : v ∈ q) (h2 : ¬ v ∈ e) : NewExp b color e q v
  | step (u w : Coord) (h1 : NewExp b color e q u) (h2 : w ∈ neighborsSpec u)
      (h3 : b (.c w) = some color) (h4 : ¬ w ∈ e) : NewExp b color e q w

/-- Loop measure: queue length plus three per not-yet-expanded valid cell. -/
def clMeasure (q e : List Coord) : Nat :=
  q.length + 3 * (validList.filter (fun w => ¬ w ∈ e)).length

/-- The breadth-first-reachable same-color group containing `c` (spec §4.3):
`c` itself together with everything connected to it through same-color
stones. -/
inductive Reach (b : Board) (color : String) (c : Coord) : Coord → Prop
  | refl : Reach b color c c
  | step (u w : Coord) (h1 : Reach b color c u) (h2 : w ∈ neighborsSpec u)
      (h3 : b (.c w) = some color) : Reach b color c w

/-- Exact shape of the strings `to_vertex_tuple` accepts: one alphabetic row
character whose lowering lies in `'a'..'j'`, followed by one or two digit
characters whose value is a column within the row length.  (Note: the digit
part may carry a leading zero.) -/
def VertexShape (s : String) (p : Coord) : Prop :=
  ∃ r cs, s.data = r :: cs ∧ 1 ≤ cs.length ∧ cs.length ≤ 2 ∧
    pyIsAlpha r = true ∧ 'a'.toNat ≤ (pyToLower r).toNat ∧
    (pyToLower r).toNat ≤ 'j'.toNat ∧ cs.all pyIsDigit = true ∧
    p = ((pyToLower r).toNat - 'a'.toNat + 1, digitsVal cs) ∧
    1 ≤ digitsVal cs ∧ digitsVal cs ≤ rowLenF ((pyToLower r).toNat - 'a'.toNat + 1)

/-- Canonical decimal digit characters of a column number (1–99), no
leading zero; the "decimal digits of c" of the vertex notation. -/
def natDigits (c : Nat) : List Char :=
  if c < 10 then [Char.ofNat ('0'.toNat + c)]
  else [Char.ofNat ('0'.toNat + c / 10), Char.ofNat ('0'.toNat + c % 10)]

/-- Canonical vertex text for a coordinate, lowercase row letter. -/
def canonLower (r c : Nat) : String :=
  String.mk (Char.ofNat ('a'.toNat + r - 1) :: natDigits c)

/-- Canonical vertex text for a coordinate, uppercase row letter. -/
def canonUpper (r c : Nat) : String :=
  String.mk (Char.ofNat ('A'.toNat + r - 1) :: natDigits c)

/-! ## Basic facts about the board enumeration and adjacency -/

theorem mem_validList {v : Coord} : v ∈ validList ↔ validCoord v := by
  obtain ⟨y, x⟩ := v
  simp only [validList, List.mem_flatMap, List.mem_map, List.mem_range, validCoord]
  constructor
  · rintro ⟨i, hi, j, hj, h⟩
    cases h
    exact ⟨by omega, by omega, by omega, by omega⟩
  · rintro ⟨h1, h2, h3, h4⟩
    have hy : y - 1 + 1 = y := by omega
    have hx : x - 1 + 1 = x := by omega
    refine ⟨y - 1, by omega, x - 1, ?_, ?_⟩
    · rw [hy]; omega
    · rw [hy, hx]

theorem validList_nodup : validList.Nodup := by decide

theorem validList_length : validList.length = 150 := by decide

/-- On valid coordinates, `get_neighbors` succeeds and agrees with the
spec-side adjacency description. -/
theorem get_neighbors_eq {v : Coord} (h : v ∈ validList) :
    get_neighbors v = .ok (neighborsSpec v) := by
  have H : ∀ u ∈ validList, get_neighbors u = .ok (neighborsSpec u) := by decide
  exact H v h

/-- Neighbors of a valid coordinate are valid. -/
theorem neighbors_valid {v w : Coord} (h : v ∈ validList) (hw : w ∈ neighborsSpec v) :
    w ∈ validList := by
  have H : ∀ u ∈ validList, ∀ z ∈ neighborsSpec u, z ∈ validList := by decide
  exact H v h w hw

/-- Every valid coordinate has between 2 and 3 neighbors. -/
theorem neighbors_card {v : Coord} (h : v ∈ validList) :
    2 ≤ (neighborsSpec v).length ∧ (neighborsSpec v).length ≤ 3 := by
  have H : ∀ u ∈ validList,
      2 ≤ (neighborsSpec u).length ∧ (neighborsSpec u).length ≤ 3 := by decide
  exact H v h

/-- One-sided adjacency symmetry over the finite board. -/
theorem neighbors_symm {v w : Coord} (h : v ∈ validList) (hw : w ∈ neighborsSpec v) :
    v ∈ neighborsSpec w := by
  have H : ∀ u ∈ validList, ∀ z ∈ neighborsSpec u, u ∈ neighborsSpec z := by decide
  exact H v h w hw

/-! ## Correctness of the liberty BFS -/

theorem newExp_not_mem {b : Board} {col : String} {e q : List Coord} {w : Coord}
    (h : NewExp b col e q w) : ¬ w ∈ e := by
  cases h with
  | base v h1 h2 => exact h2
  | step u w h1 h2 h3 h4 => exact h4

theorem newExp_nil {b : Board} {col : String} {e : List Coord} {w : Coord} :
    ¬ NewExp b col e [] w := by
  intro h
  induction h with
  | base v h1 h2 => exact absurd h1 (List.not_mem_nil v)
  | step u z h1 h2 h3 h4 ih => exact ih

theorem newExp_skip {b : Board} {col : String} {e rest : List Coord} {v w : Coord}
    (hv : v ∈ e) : NewExp b col e (v :: rest) w ↔ NewExp b col e rest w := by
  constructor
  · intro h
    induction h with
    | base u h1 h2 =>
      rcases List.mem_cons.mp h1 with h | h
      · subst h; exact absurd hv h2
      · exact .base u h h2
    | step u z h1 h2 h3 h4 ih => exact .step u z ih h2 h3 h4
  · intro h
    induction h with
    | base u h1 h2 => exact .base u (List.mem_cons_of_mem _ h1) h2
    | step u z h1 h2 h3 h4 ih => exact .step u z ih h2 h3 h4

theorem newExp_expand {b : Board} {col : String} {e rest : List Coord} {v w : Coord}
    (hv : ¬ v ∈ e) :
    NewExp b col e (v :: rest) w ↔
      (w = v ∨ NewExp b col (v :: e)
        (rest ++ (neighborsSpec v).filter (fun u => b (.c u) = some col)) w) := by
  constructor
  · intro h
    induction h with
    | base u h1 h2 =>
      rcases List.mem_cons.mp h1 with h | h
      · exact .inl h
      · by_cases huv : u = v
        · exact .inl huv
        · refine .inr (.base u (List.mem_append_left _ h) ?_)
          intro hm
          rcases List.mem_cons.mp hm with h2' | h2'
          · exact huv h2'
          · exact h2 h2'
    | step u z h1 h2 h3 h4 ih =>
      by_cases hzv : z = v
      · exact .inl hzv
      · have hz2 : ¬ z ∈ v :: e := by
          intro hm
          rcases List.mem_cons.mp hm with h' | h'
          · exact hzv h'
          · exact h4 h'
        rcases ih with h | h
        · subst h
          refine .inr (.base z (List.mem_append_right _ ?_) hz2)
          exact List.mem_filter.mpr ⟨h2, by simp [h3]⟩
        · exact .inr (.step u z h h2 h3 hz2)
  · intro h
    rcases h with h | h
    · subst h; exact .base w (List.mem_cons_self _ _) hv
    · induction h with
      | base u h1 h2 =>
        have h2e : ¬ u ∈ e := fun hm => h2 (List.mem_cons_of_mem _ hm)
        rcases List.mem_append.mp h1 with h | h
        · exact .base u (List.mem_cons_of_mem _ h) h2e
        · obtain ⟨hmem, hcol⟩ := List.mem_filter.mp h
          exact .step v u (.base v (List.mem_cons_self _ _) hv) hmem
            (by simpa using hcol) h2e
      | step u z h1 h2 h3 h4 ih =>
        exact .step u z ih h2 h3 (fun hm => h4 (List.mem_cons_of_mem _ hm))

theorem measure_drop {v : Coord} {e : List Coord}
    (h1 : v ∈ validList) (h2 : ¬ v ∈ e) :
    (validList.filter (fun w => ¬ w ∈ v :: e)).length + 1
      = (validList.filter (fun w => ¬ w ∈ e)).length := by
  have hcong : validList.filter (fun w => ¬ w ∈ v :: e)
      = (validList.filter (fun w => ¬ w ∈ e)).filter (fun w => w != v) := by
    rw [List.filter_filter]
    apply List.filter_congr
    intro a _
    by_cases hav : a = v <;> by_cases hae : a ∈ e <;> simp [hav, hae]
  have hnd : (validList.filter (fun w => ¬ w ∈ e)).Nodup := validList_nodup.filter _
  have hv2 : v ∈ validList.filter (fun w => ¬ w ∈ e) :=
    List.mem_filter.mpr ⟨h1, by simp [h2]⟩
  have hpos : 0 < (validList.filter (fun w => ¬ w ∈ e)).length :=
    List.length_pos_of_mem hv2
  rw [hcong, ← hnd.erase_eq_filter v, List.length_erase_of_mem hv2]
  omega

/-- Master lemma: with enough fuel and a valid queue, the BFS loop succeeds
and returns the starting count plus one `emptyAdjCount` per newly expanded
cell. -/
theorem cl_loop_spec (b : Board) (col : String) :
    ∀ (fuel : Nat) (q e : List Coord) (acc : Nat),
      (∀ v ∈ q, v ∈ validList) →
      clMeasure q e < fuel →
      ∃ N : List Coord, N.Nodup ∧ (∀ w, w ∈ N ↔ NewExp b col e q w) ∧
        cl_loop b col fuel q e acc = .ok (acc + (N.map (emptyAdjCount b)).sum) := by
  intro fuel
  induction fuel with
  | zero => intro q e acc _ hm; exact absurd hm (Nat.not_lt_zero _)
  | succ fuel ih =>
    intro q e acc hq hm
    match q with
    | [] =>
      refine ⟨[], List.nodup_nil, ?_, ?_⟩
      · intro w
        simp only [List.not_mem_nil, false_iff]
        exact newExp_nil
      · simp [cl_loop]
    | v :: rest =>
      by_cases hv : v ∈ e
      · have hm2 : clMeasure rest e < fuel := by
          simp only [clMeasure, List.length_cons] at hm ⊢
          omega
        obtain ⟨N, hN1, hN2, hN3⟩ :=
          ih rest e acc (fun u hu => hq u (List.mem_cons_of_mem _ hu)) hm2
        refine ⟨N, hN1, ?_, ?_⟩
        · intro w
          rw [newExp_skip hv]
          exact hN2 w
        · rw [show cl_loop b col (fuel + 1) (v :: rest) e acc
              = cl_loop b col fuel rest e acc from by simp [cl_loop, hv]]
          exact hN3
      · have hvV : v ∈ validList := hq v (List.mem_cons_self _ _)
        have hgn := get_neighbors_eq hvV
        have hq2 : ∀ u ∈ rest ++ (neighborsSpec v).filter
            (fun u => b (.c u) = some col), u ∈ validList := by
          intro u hu
          rcases List.mem_append.mp hu with h | h
          · exact hq u (List.mem_cons_of_mem _ h)
          · exact neighbors_valid hvV (List.mem_filter.mp h).1
        have hm2 : clMeasure (rest ++ (neighborsSpec v).filter
            (fun u => b (.c u) = some col)) (v :: e) < fuel := by
          have hd := measure_drop hvV hv
          have hlen : ((neighborsSpec v).filter
              (fun u => b (.c u) = some col)).length ≤ 3 :=
            le_trans (List.length_filter_le _ _) (neighbors_card hvV).2
          simp only [clMeasure, List.length_cons, List.length_append] at hm ⊢
          omega
        obtain ⟨N, hN1, hN2, hN3⟩ :=
          ih _ (v :: e) (acc + emptyAdjCount b v) hq2 hm2
        refine ⟨v :: N, ?_, ?_, ?_⟩
        · refine List.nodup_cons.mpr ⟨?_, hN1⟩
          intro hvN
          exact absurd (List.mem_cons_self v e) (newExp_not_mem ((hN2 v).mp hvN))
        · intro w
          rw [newExp_expand hv]
          simp only [List.mem_cons]
          constructor
          · rintro (h | h)
            · exact .inl h
            · exact .inr ((hN2 w).mp h)
          · rintro (h | h)
            · exact .inl h
            · exact .inr ((hN2 w).mpr h)
        · have hstep : cl_loop b col (fuel + 1) (v :: rest) e acc
              = cl_loop b col fuel
                  (rest ++ (neighborsSpec v).filter (fun u => b (.c u) = some col))
                  (v :: e) (acc + emptyAdjCount b v) := by
            simp only [cl_loop, if_neg hv, hgn, emptyAdjCount]
          rw [hstep, hN3]
          simp only [List.map_cons, List.sum_cons]
          congr 1
          omega

theorem reach_iff_newExp {b : Board} {col : String} {c w : Coord} :
    Reach b col c w ↔ NewExp b col [] [c] w := by
  constructor
  · intro h
    induction h with
    | refl => exact .base c (List.mem_singleton_self c) (List.not_mem_nil c)
    | step u z h1 h2 h3 ih => exact .step u z ih h2 h3 (List.not_mem_nil z)
  · intro h
    induction h with
    | base u h1 h2 =>
      have := List.mem_singleton.mp h1
      subst this
      exact .refl
    | step u z h1 h2 h3 h4 ih => exact .step u z ih h2 h3

/-- `count_liberties_of` on a stone at a valid coordinate succeeds and
returns the sum, over the reachable same-color group, of the per-stone
empty-neighbor adjacency counts. -/
theorem count_liberties_reach (b : Board) (vt : Coord) (col : String)
    (h1 : vt ∈ validList) (h2 : b (.c vt) = some col) (h3 : col ≠ "") :
    ∃ N : List Coord, N.Nodup ∧ (∀ w, w ∈ N ↔ Reach b col vt w) ∧
      count_liberties_of b vt = .ok ((N.map (emptyAdjCount b)).sum) := by
  have hall : (validList.filter (fun w => ¬ w ∈ ([] : List Coord))).length = 150 := by
    decide
  have hm : clMeasure [vt] [] < clFuel := by
    simp only [clMeasure, List.length_singleton, hall, clFuel]
    omega
  obtain ⟨N, hN1, hN2, hN3⟩ := cl_loop_spec b col clFuel [vt] [] 0
    (by
      intro u hu
      have := List.mem_singleton.mp hu
      subst this
      exact h1) hm
  refine ⟨N, hN1, ?_, ?_⟩
  · intro w
    rw [reach_iff_newExp]
    exact hN2 w
  · simp only [count_liberties_of, h2, if_neg h3]
    rw [hN3]
    simp

/-! ## Parser characterization -/

theorem length_of_row_char {r : Char} (h1 : pyIsAlpha r = true)
    (h2 : 'a'.toNat ≤ (pyToLower r).toNat) (h3 : (pyToLower r).toNat ≤ 'j'.toNat) :
    length_of_row (.str (String.mk [r]))
      = .ok (rowLenF ((pyToLower r).toNat - 'a'.toNat + 1)) := by
  have ha : 'a'.toNat = 97 := rfl
  have hj : 'j'.toNat = 106 := rfl
  rw [ha] at h2
  rw [hj] at h3
  simp only [length_of_row]
  rw [if_pos (by simp [h1])]
  simp only [length_of_row_int, rowLenF, ha]
  split_ifs with hA hB hC <;> first | rfl | (exfalso; omega) | (congr 1; omega)

theorem to_vertex_tuple_iff {s : String} {p : Coord} :
    to_vertex_tuple s = .ok p ↔ VertexShape s p := by
  constructor
  · intro h
    unfold to_vertex_tuple at h
    split at h
    · rename_i r cs heq
      split at h
      · rename_i hlen
        split at h
        · rename_i hgate
          obtain ⟨hg1, hg2, hg3, hg4⟩ := hgate
          rw [length_of_row_char hg1 hg2 hg3] at h
          dsimp only [] at h
          split at h
          · rename_i hcol
            injection h with h
            exact ⟨r, cs, heq, hlen.1, hlen.2, hg1, hg2, hg3, hg4, h.symm,
              hcol.1, hcol.2⟩
          · cases h
        · cases h
      · cases h
    · cases h
  · rintro ⟨r, cs, hsd, hl1, hl2, hg1, hg2, hg3, hg4, hp, hc1, hc2⟩
    subst hp
    unfold to_vertex_tuple
    rw [hsd]
    dsimp only []
    rw [if_pos ⟨hl1, hl2⟩, if_pos ⟨hg1, hg2, hg3, hg4⟩,
      length_of_row_char hg1 hg2 hg3]
    dsimp only []
    rw [if_pos ⟨hc1, hc2⟩]

theorem to_vertex_tuple_valid {s : String} {p : Coord}
    (h : to_vertex_tuple s = .ok p) : p ∈ validList := by
  obtain ⟨r, cs, hsd, hl1, hl2, hg1, hg2, hg3, hg4, hp, hc1, hc2⟩ :=
    to_vertex_tuple_iff.mp h
  subst hp
  rw [mem_validList]
  have ha : 'a'.toNat = 97 := rfl
  have hj : 'j'.toNat = 106 := rfl
  rw [ha] at hg2
  rw [hj] at hg3
  exact ⟨by omega, by rw [ha] at hc2 ⊢; omega, hc1, by rw [ha] at hc2 ⊢; exact hc2⟩

/-! ## Probe and legality lemmas -/

theorem bset_get_same (b : Board) (k : BKey) (v : Option String) :
    bset b k v k = v := by
  simp [bset]

theorem bset_unset (b : Board) (k : BKey) (v : Option String) (h : b k = none) :
    bset (bset b k v) k none = b := by
  funext w
  simp only [bset]
  by_cases hw : w = k
  · subst hw; simp [h]
  · simp [hw]

/-- Evaluation of the suicide probe on an empty, parseable target with a
non-falsy color: the liberty count succeeds and the board is restored. -/
theorem is_not_suicide_eval {b : Board} {m : Move} {vt : Coord}
    (hp : to_vertex_tuple m.vertex = .ok vt) (he : b (.c vt) = none)
    (hc : m.color ≠ "") :
    ∃ n, count_liberties_of (bset b (.c vt) (some m.color)) vt = .ok n ∧
      is_not_suicide b m = (.ok (n != 0), b) := by
  have hvalid : vt ∈ validList := to_vertex_tuple_valid hp
  have hstone : (bset b (.c vt) (some m.color)) (.c vt) = some m.color :=
    bset_get_same b (.c vt) (some m.color)
  obtain ⟨N, _, _, hcnt⟩ := count_liberties_reach _ vt m.color hvalid hstone hc
  refine ⟨_, hcnt, ?_⟩
  unfold is_not_suicide
  rw [hp]
  dsimp only []
  rw [if_neg (by simp [he])]
  rw [hcnt]
  dsimp only []
  rw [bset_unset _ _ _ he]

/-- With a two-valued (hence non-falsy) move color, `is_legal` always
returns a boolean — it never propagates an exception — and leaves the board
as it was. -/
theorem is_legal_eval (g : Game) (m : Move) (hc : m.color ≠ "") :
    ∃ t : Bool, is_legal g m = (.ok t, g.board) := by
  unfold is_legal
  by_cases h1 : g.current_player = m.color
  · rw [if_pos h1]
    by_cases h2 : m.vertex = HTP_PASS ∨ m.vertex = HTP_RESIGN
    · rw [if_pos h2]
      exact ⟨true, rfl⟩
    · rw [if_neg h2]
      cases hp : to_vertex_tuple m.vertex with
      | error e =>
        exact ⟨false, rfl⟩
      | ok vt =>
        dsimp only []
        by_cases h3 : g.board (.c vt) = none
        · rw [if_pos h3]
          obtain ⟨n, hcnt, hins⟩ := is_not_suicide_eval hp h3 hc
          exact ⟨n != 0, hins⟩
        · rw [if_neg h3]
          exact ⟨false, rfl⟩
  · rw [if_neg h1]
    exact ⟨false, rfl⟩

theorem color_ne_empty {m : Move} (hc : m.color = RED ∨ m.color = BLUE) :
    m.color ≠ "" := by
  rcases hc with h | h <;> rw [h] <;> decide

/-! ## Claim theorems -/

/-- C2: for every game state and move with a two-valued color, `is_legal`
returns a boolean (parse failures are swallowed, never raised), and it
returns `true` iff the move's color is the color to move and the move is a
pass/resign sentinel or parses to an empty coordinate whose placement
leaves the new group with a nonzero liberty count. -/
theorem c2_is_legal_iff (g : Game) (m : Move)
    (hc : m.color = RED ∨ m.color = BLUE) :
    (∃ t, (is_legal g m).1 = .ok t) ∧
    ((is_legal g m).1 = .ok true ↔
      g.current_player = m.color ∧
        (m.vertex = HTP_PASS ∨ m.vertex = HTP_RESIGN ∨
          ∃ vt n, to_vertex_tuple m.vertex = .ok vt ∧ g.board (.c vt) = none ∧
            count_liberties_of (bset g.board (.c vt) (some m.color)) vt = .ok n ∧
            n ≠ 0)) := by
  have hc2 : m.color ≠ "" := color_ne_empty hc
  constructor
  · obtain ⟨t, hleg⟩ := is_legal_eval g m hc2
    exact ⟨t, by rw [hleg]⟩
  · unfold is_legal
    by_cases h1 : g.current_player = m.color
    · rw [if_pos h1]
      by_cases h2 : m.vertex = HTP_PASS ∨ m.vertex = HTP_RESIGN
      · rw [if_pos h2]
        constructor
        · intro _
          refine ⟨h1, ?_⟩
          rcases h2 with h | h
          · exact .inl h
          · exact .inr (.inl h)
        · intro _
          rfl
      · rw [if_neg h2]
        cases hp : to_vertex_tuple m.vertex with
        | error e =>
          dsimp only []
          constructor
          · intro hfalse
            exact absurd hfalse (by simp)
          · rintro ⟨-, h | h | ⟨vt, n, hvt, -⟩⟩
            · exact absurd (.inl h) h2
            · exact absurd (.inr h) h2
            · cases hvt
        | ok vt =>
          dsimp only []
          by_cases h3 : g.board (.c vt) = none
          · rw [if_pos h3]
            obtain ⟨n, hcnt, hins⟩ := is_not_suicide_eval hp h3 hc2
            rw [hins]
            dsimp only []
            constructor
            · intro hok
              have hn : (n != 0) = true := by
                injection hok
              refine ⟨h1, .inr (.inr ⟨vt, n, rfl, h3, hcnt, by simpa using hn⟩)⟩
            · rintro ⟨-, h | h | ⟨vt2, n2, hvt2, h3b, hcnt2, hn2⟩⟩
              · exact absurd (.inl h) h2
              · exact absurd (.inr h) h2
              · injection hvt2 with hv
                subst hv
                rw [hcnt] at hcnt2
                injection hcnt2 with hn
                subst hn
                simp [hn2]
          · rw [if_neg h3]
            constructor
            · intro hfalse
              exact absurd hfalse (by simp)
            · rintro ⟨-, h | h | ⟨vt2, n2, hvt2, h3b, -⟩⟩
              · exact absurd (.inl h) h2
              · exact absurd (.inr h) h2
              · injection hvt2 with hv
                subst hv
                exact absurd h3b h3
    · rw [if_neg h1]
      constructor
      · intro hfalse
        exact absurd hfalse (by simp)
      · rintro ⟨h, -⟩
        exact absurd h h1

/-- C3: whenever `is_legal` answers `false`, `play` fails with the
illegal-move error and the game state — board at every key, move list and
color to move — is exactly as before the call. -/
theorem c3_illegal_play_rejected (g : Game) (m : Move)
    (hc : m.color = RED ∨ m.color = BLUE)
    (h : (is_legal g m).1 = .ok false) :
    play g m = (.error .illegalMove, g) := by
  obtain ⟨t, hleg⟩ := is_legal_eval g m (color_ne_empty hc)
  have ht : t = false := by
    rw [hleg] at h
    injection h
  subst ht
  unfold play
  rw [hleg]

/-- C4: every successful `play` (placement, pass or resign) appends exactly
the played move to the end of the move list and flips the color to move to
the other color. -/
theorem c4_play_appends_and_flips (g : Game) (m : Move)
    (hcur : g.current_player = BLUE ∨ g.current_player = RED)
    (h : (play g m).1 = .ok ()) :
    (play g m).2.movelist = g.movelist ++ [m] ∧
      ((g.current_player = BLUE ∧ (play g m).2.current_player = RED) ∨
       (g.current_player = RED ∧ (play g m).2.current_player = BLUE)) := by
  rcases hleg : is_legal g m with ⟨r, b2⟩
  rcases r with e | t
  · have hplay : play g m = (.error e, { g with board := b2 }) := by
      unfold play
      rw [hleg]
    rw [hplay] at h
    exact absurd h (by simp)
  · cases t
    · have hplay : play g m = (.error .illegalMove, { g with board := b2 }) := by
        unfold play
        rw [hleg]
      rw [hplay] at h
      exact absurd h (by simp)
    · have hplay : play g m
          = (.ok (), Game.mk (bset b2 (.s m.vertex) (some m.color))
              (g.movelist ++ [m])
              (if g.current_player = BLUE then RED else BLUE)) := by
        unfold play
        rw [hleg]
      rw [hplay]
      refine ⟨rfl, ?_⟩
      rcases hcur with hcu | hcu
      · exact .inl ⟨hcu, by simp [hcu]⟩
      · refine .inr ⟨hcu, ?_⟩
        have hne : g.current_player ≠ BLUE := by
          rw [hcu]
          decide
        simp [hne]

/-- C6: probing with `is_legal` or `is_not_suicide` leaves the observable
board exactly as it was — the suicide probe's temporary stone placement is
always undone — for any game state and any move with a two-valued color. -/
theorem c6_probe_preserves_board (g : Game) (m : Move)
    (hc : m.color = RED ∨ m.color = BLUE) :
    (is_legal g m).2 = g.board ∧ (is_not_suicide g.board m).2 = g.board := by
  have hc2 : m.color ≠ "" := color_ne_empty hc
  constructor
  · obtain ⟨t, hleg⟩ := is_legal_eval g m hc2
    rw [hleg]
  · cases hp : to_vertex_tuple m.vertex with
    | error e =>
      unfold is_not_suicide
      rw [hp]
    | ok vt =>
      by_cases h3 : g.board (.c vt) = none
      · obtain ⟨n, hcnt, hins⟩ := is_not_suicide_eval hp h3 hc2
        rw [hins]
      · unfold is_not_suicide
        rw [hp]
        dsimp only []
        rw [if_pos (by simp [h3])]

/-- C1 (code-bug evidence): playing BLUE "a1" on a fresh game succeeds, yet
the parsed coordinate (1,1) remains empty — the stone is stored under the
raw string key "a1" (`self.board[move.vertex] = move.color` in `play`
instead of the parsed tuple) — so the opponent can immediately "legally"
play the same vertex again. -/
theorem c1_play_stores_string_key :
    (play Game.init ⟨BLUE, "a1"⟩).1 = .ok () ∧
    to_vertex_tuple "a1" = .ok (1, 1) ∧
    (play Game.init ⟨BLUE, "a1"⟩).2.board (.c (1, 1)) = none ∧
    (play Game.init ⟨BLUE, "a1"⟩).2.board (.s "a1") = some BLUE ∧
    (is_legal (play Game.init ⟨BLUE, "a1"⟩).2 ⟨RED, "a1"⟩).1 = .ok true := by
  refine ⟨rfl, rfl, ?_, ?_, rfl⟩ <;> rfl

/-- C5: `count_liberties_of` on an empty coordinate fails with the
empty-point error for every board; on a stone at a valid coordinate it
returns the number of (stone, empty-neighbor) adjacency pairs summed over
the breadth-first-reachable same-color group (counting once per adjacency,
without deduplicating shared empty neighbors); and on a board whose only
stone is BLUE at (1,1) (vertex "a1") the result is 2. -/
theorem c5_count_liberties :
    (∀ (b : Board) (c : Coord), b (.c c) = none →
      count_liberties_of b c = .error .emptyPoint) ∧
    (∀ (b : Board) (c : Coord) (col : String), validCoord c →
      b (.c c) = some col → col ≠ "" →
      ∃ N : List Coord, N.Nodup ∧ (∀ w, w ∈ N ↔ Reach b col c w) ∧
        count_liberties_of b c = .ok ((N.map (emptyAdjCount b)).sum)) ∧
    count_liberties_of (bset (fun _ => none) (.c (1, 1)) (some BLUE)) (1, 1)
      = .ok 2 := by
  refine ⟨?_, ?_, rfl⟩
  · intro b c h
    unfold count_liberties_of
    rw [h]
  · intro b c col hv h2 h3
    exact count_liberties_reach b c col (mem_validList.mpr hv) h2 h3

/-- C5 witness: empty board fails with the empty-point error, and the
group/sum characterization holds at the single-stone "a1" fixture. -/
theorem c5_witness :
    count_liberties_of (fun _ => none) (1, 1) = .error .emptyPoint ∧
    ∃ N : List Coord, N.Nodup ∧
      (∀ w, w ∈ N ↔
        Reach (bset (fun _ => none) (.c (1, 1)) (some BLUE)) BLUE (1, 1) w) ∧
      count_liberties_of (bset (fun _ => none) (.c (1, 1)) (some BLUE)) (1, 1)
        = .ok ((N.map (emptyAdjCount (bset (fun _ => none) (.c (1, 1)) (some BLUE)))).sum) :=
  ⟨c5_count_liberties.1 (fun _ => none) (1, 1) rfl,
   c5_count_liberties.2.1 (bset (fun _ => none) (.c (1, 1)) (some BLUE)) (1, 1) BLUE
     (by decide) (bset_get_same (fun _ => none) (.c (1, 1)) (some BLUE)) (by decide)⟩

/-- C7: on valid coordinates `get_neighbors` succeeds with the spec-ordered
list (left, right, diagonal), adjacency is symmetric, every valid
coordinate has 2 or 3 neighbors, and the four concrete neighbor lists from
the spec hold. -/
theorem c7_neighbors :
    (∀ A, validCoord A → get_neighbors A = .ok (neighborsSpec A)) ∧
    (∀ A B, validCoord A → validCoord B →
      (B ∈ neighborsSpec A ↔ A ∈ neighborsSpec B)) ∧
    (∀ A, validCoord A →
      2 ≤ (neighborsSpec A).length ∧ (neighborsSpec A).length ≤ 3) ∧
    (get_neighbors (1, 2) = .ok [(1, 1), (1, 3)] ∧
     get_neighbors (5, 5) = .ok [(5, 4), (5, 6), (6, 5)] ∧
     get_neighbors (1, 1) = .ok [(1, 2), (2, 2)] ∧
     get_neighbors (10, 11) = .ok [(10, 10), (9, 12)]) := by
  refine ⟨?_, ?_, ?_, ⟨rfl, rfl, rfl, rfl⟩⟩
  · intro A hA
    exact get_neighbors_eq (mem_validList.mpr hA)
  · intro A B hA hB
    constructor
    · intro h
      exact neighbors_symm (mem_validList.mpr hA) h
    · intro h
      exact neighbors_symm (mem_validList.mpr hB) h
  · intro A hA
    exact neighbors_card (mem_validList.mpr hA)

/-- C7 witness: the refinement applied at the concrete coordinate (5,5). -/
theorem c7_witness : get_neighbors (5, 5) = .ok (neighborsSpec (5, 5)) :=
  c7_neighbors.1 (5, 5) (by decide)

/-- C8 counterexample: "a01" parses successfully to (1,1) even though it is
not the canonical text (in either letter case) of any valid coordinate, so
"parseVertex fails with InvalidVertex for every other input" is false as
stated. -/
theorem c8_counterexample :
    to_vertex_tuple "a01" = .ok (1, 1) ∧
    (validList.all fun p =>
      canonLower p.1 p.2 != "a01" && canonUpper p.1 p.2 != "a01") = true := by
  constructor
  · rfl
  · decide

/-- C8 (amended): parsing the canonical text of every valid coordinate
round-trips, case-insensitively in the row letter; the seven listed inputs
fail; and in general `to_vertex_tuple` succeeds exactly on strings made of
one alphabetic row character lowering into 'a'..'j' followed by one or two
digit characters (leading zeros allowed) whose value is a column within the
row's length. -/
theorem c8_parse_characterization :
    (∀ r c, 1 ≤ r → r ≤ 10 → 1 ≤ c → c ≤ rowLenF r →
      to_vertex_tuple (canonLower r c) = .ok (r, c) ∧
      to_vertex_tuple (canonUpper r c) = .ok (r, c)) ∧
    (to_vertex_tuple "a20" = .error .invalidVertex ∧
     to_vertex_tuple "11" = .error .invalidVertex ∧
     to_vertex_tuple "f-2" = .error .invalidVertex ∧
     to_vertex_tuple "e0" = .error .invalidVertex ∧
     to_vertex_tuple "a12" = .error .invalidVertex ∧
     to_vertex_tuple "a" = .error .invalidVertex ∧
     to_vertex_tuple "4a" = .error .invalidVertex) ∧
    (∀ s p, to_vertex_tuple s = .ok p ↔ VertexShape s p) := by
  refine ⟨?_, ⟨rfl, rfl, rfl, rfl, rfl, rfl, rfl⟩, fun s p => to_vertex_tuple_iff⟩
  have H : ∀ p ∈ validList,
      to_vertex_tuple (canonLower p.1 p.2) = .ok p ∧
      to_vertex_tuple (canonUpper p.1 p.2) = .ok p := by decide
  intro r c h1 h2 h3 h4
  exact H (r, c) (mem_validList.mpr ⟨h1, h2, h3, h4⟩)

/-- C8 witness: the round-trip applied at row 10, column 11 ("j11"). -/
theorem c8_witness : to_vertex_tuple (canonLower 10 11) = .ok (10, 11) :=
  (c8_parse_characterization.1 10 11 (by decide) (by decide) (by decide) (by decide)).1

/-- C9: `length_of_row` follows the two formulas (sequence
11,13,15,17,19,19,17,15,13,11), is symmetric under r ↦ 11−r on valid rows,
takes the stated values on letters 'a','e','f','j', and fails with the
invalid-row error for every integer row identifier outside 1–10. -/
theorem c9_row_length :
    (∀ r : Nat, 1 ≤ r → r ≤ 5 →
      length_of_row (.int (r : Int)) = .ok (9 + 2 * r)) ∧
    (∀ r : Nat, 6 ≤ r → r ≤ 10 →
      length_of_row (.int (r : Int)) = .ok (9 + 2 * (11 - r))) ∧
    (∀ r : Nat, 1 ≤ r → r ≤ 10 →
      length_of_row (.int (r : Int)) = length_of_row (.int ((11 - r : Nat) : Int))) ∧
    (length_of_row (.str "a") = .ok 11 ∧ length_of_row (.str "e") = .ok 19 ∧
     length_of_row (.str "f") = .ok 19 ∧ length_of_row (.str "j") = .ok 11) ∧
    (∀ r : Int, r < 1 ∨ 10 < r → length_of_row (.int r) = .error .invalidRow) := by
  have H1 : ∀ r ∈ List.range 11, 1 ≤ r → r ≤ 5 →
      length_of_row (.int (r : Int)) = .ok (9 + 2 * r) := by decide
  have H2 : ∀ r ∈ List.range 11, 6 ≤ r → r ≤ 10 →
      length_of_row (.int (r : Int)) = .ok (9 + 2 * (11 - r)) := by decide
  have H3 : ∀ r ∈ List.range 11, 1 ≤ r → r ≤ 10 →
      length_of_row (.int (r : Int)) = length_of_row (.int ((11 - r : Nat) : Int)) := by
    decide
  refine ⟨?_, ?_, ?_, ⟨rfl, rfl, rfl, rfl⟩, ?_⟩
  · intro r h1 h2
    exact H1 r (List.mem_range.mpr (by omega)) h1 (by omega)
  · intro r h1 h2
    exact H2 r (List.mem_range.mpr (by omega)) h1 h2
  · intro r h1 h2
    exact H3 r (List.mem_range.mpr (by omega)) h1 h2
  · intro r hr
    simp only [length_of_row, length_of_row_int]
    rw [if_neg (by omega), if_neg (by omega)]

/-- C9 witness: the formula applied at row 3 and the failure applied at
row −1. -/
theorem c9_witness :
    length_of_row (.int ((3 : Nat) : Int)) = .ok (9 + 2 * 3) ∧
    length_of_row (.int (-1)) = .error .invalidRow :=
  ⟨c9_row_length.1 3 (by decide) (by decide),
   c9_row_length.2.2.2.2 (-1) (.inl (by decide))⟩

/-- C10: a newly constructed game has every board key empty, an empty move
list, and BLUE as the color to move. -/
theorem c10_initial_state :
    (∀ k, Game.init.board k = none) ∧ Game.init.movelist = [] ∧
      Game.init.current_player = BLUE :=
  ⟨fun _ => rfl, rfl, rfl⟩

/-- C2 witness: the legality characterization applied to BLUE passing on a
fresh game. -/
theorem c2_witness : (is_legal Game.init ⟨BLUE, "pass"⟩).1 = .ok true :=
  (c2_is_legal_iff Game.init ⟨BLUE, "pass"⟩ (.inr rfl)).2.mpr ⟨rfl, .inl rfl⟩

/-- C3 witness: RED moving first is illegal and `play` rejects it leaving
the fresh game unchanged. -/
theorem c3_witness : play Game.init ⟨RED, "a1"⟩ = (.error .illegalMove, Game.init) :=
  c3_illegal_play_rejected Game.init ⟨RED, "a1"⟩ (.inl rfl) rfl

/-- C4 witness: BLUE passing on a fresh game appends the move and flips the
turn to RED. -/
theorem c4_witness :
    (play Game.init ⟨BLUE, "pass"⟩).2.movelist = Game.init.movelist ++ [⟨BLUE, "pass"⟩] ∧
      ((Game.init.current_player = BLUE ∧
          (play Game.init ⟨BLUE, "pass"⟩).2.current_player = RED) ∨
       (Game.init.current_player = RED ∧
          (play Game.init ⟨BLUE, "pass"⟩).2.current_player = BLUE)) :=
  c4_play_appends_and_flips Game.init ⟨BLUE, "pass"⟩ (.inl rfl) rfl

/-- C6 witness: probing BLUE "a1" on a fresh game leaves the board
untouched through both entry points. -/
theorem c6_witness :
    (is_legal Game.init ⟨BLUE, "a1"⟩).2 = Game.init.board ∧
      (is_not_suicide Game.init.board ⟨BLUE, "a1"⟩).2 = Game.init.board :=
  c6_probe_preserves_board Game.init ⟨BLUE, "a1"⟩ (.inr rfl)

end Hecks


